import Mathlib

/-!
# espoke: vanished-node metric cleaning (`cmd/prometheus.go`)

A shallow embedding of `cleanMetrics` and of the library calls it makes
(`strings.SplitN`, `time.Since`, `DeleteLabelValues`, `Observe`), followed by the
properties of the garbage-collection pass.

Conventions of the embedding:
* a Go `string` is a finite sequence of bytes; it is embedded as `List Char`.  The only
  operations the code performs on strings are equality and splitting at the one-byte
  separator `|`, which behave identically on bytes and on characters;
* calls on the Prometheus collectors and on the logger are recorded, in program order, in a
  trace of `Event`s; the effect of the trace on the collectors is given by `Registry.applyTrace`;
* a run-time panic (index out of range) ends the run: the trace holds what was issued before.
-/

namespace Espoke

/-- Go `string`, as the sequence of its characters. -/
abbrev GoString := List Char

/-- Modelled from the spec: the struct type `esnode` is declared in a file that is not part
of `src/`; only the two fields read by `cleanMetrics` (`node.name`, `node.cluster`), the
NodeIdentity `{name: string, cluster: string}` of the spec, are kept. -/
structure esnode where
  name : GoString
  cluster : GoString
deriving DecidableEq, Repr

/-- The five per-node metric vectors declared on lines 29-70 of `prometheus.go`. -/
inductive MetricVec where
  | shardsSuccessfulGauge
  | docsHitGauge
  | elasticNodeAvailabilityGauge
  | kibanaNodeAvailabilityGauge
  | nodeSearchLatencySummary
deriving DecidableEq, Repr

/-- The `Name:` option of each vector (lines 31, 39, 47, 55, 63). -/
def MetricVec.metricName : MetricVec → String
  | .shardsSuccessfulGauge => "es_node_shards_successful"
  | .docsHitGauge => "es_node_documents_hit"
  | .elasticNodeAvailabilityGauge => "es_node_availability"
  | .kibanaNodeAvailabilityGauge => "kibana_node_availability"
  | .nodeSearchLatencySummary => "es_node_search_latency"

/-- The variable label names each vector is declared with (lines 34, 42, 50, 58, 69), in
declaration order. -/
def MetricVec.labelNames : MetricVec → List String
  | .shardsSuccessfulGauge => ["cluster", "nodename"]
  | .docsHitGauge => ["cluster", "nodename"]
  | .elasticNodeAvailabilityGauge => ["cluster", "nodename"]
  | .kibanaNodeAvailabilityGauge => ["cluster", "nodename"]
  | .nodeSearchLatencySummary => ["cluster", "nodename"]

/-- Log levels used by `cleanMetrics`. -/
inductive LogLevel where
  | debug
  | info
deriving DecidableEq, Repr

/-- The externally visible calls made by `cleanMetrics`. -/
inductive Event where
  /-- A call `log.Debug(args...)` or `log.Info(args...)`. -/
  | log (level : LogLevel) (args : List GoString)
  /-- A call `vec.DeleteLabelValues(lvs...)`. -/
  | deleteLabelValues (vec : MetricVec) (lvs : List GoString)
  /-- A call `cleaningMetricsDurationSummary.Observe(d)`; `d` is the integer number of
  nanoseconds that the code converts with `float64(...)`. -/
  | observe (durationNanosec : Int)
deriving DecidableEq, Repr

/-- How a run of `cleanMetrics` ends: it returns its `error` result (`none` is Go's `nil`), or
it panics on an index expression that is out of range. -/
inductive Outcome where
  | returned (err : Option GoString)
  | panicked
deriving DecidableEq, Repr

/-- A run: the calls issued, in order, and the way the run ended. -/
structure Run where
  trace : List Event
  outcome : Outcome
deriving DecidableEq, Repr

/-! ## Library functions used by `cleanMetrics` -/

/-- Go `strings.Index(s, sep)` for a one-byte separator: position of the first occurrence,
`none` for Go's `-1`. -/
def indexByte : GoString → Char → Option Nat
  | [], _ => none
  | c :: cs, sep => if c = sep then some 0 else (indexByte cs sep).map (· + 1)

/-- Go `strings.Count(s, sep)` for a one-byte separator. -/
def countByte (s : GoString) (sep : Char) : Nat := s.count sep

/-- The loop of Go `strings.genSplit`: at most `budget` cuts, each at the first separator of
what is left; the remainder is the last element. -/
def splitLoop (sep : Char) : Nat → GoString → List GoString
  | 0, s => [s]
  | budget + 1, s =>
    match indexByte s sep with
    | none => [s]
    | some m => s.take m :: splitLoop sep budget (s.drop (m + 1))

/-- Go `strings.SplitN(s, sep, n)` for a one-byte separator `sep`. -/
def SplitN (s : GoString) (sep : Char) (n : Int) : List GoString :=
  if n = 0 then []
  else
    let n1 : Nat := if n < 0 then countByte s sep + 1 else n.toNat
    let n2 : Nat := if n1 > s.length + 1 then s.length + 1 else n1
    splitLoop sep (n2 - 1) s

/-- Largest `time.Duration` (an `int64`). -/
def maxDuration : Int := 2 ^ 63 - 1

/-- Smallest `time.Duration` (an `int64`). -/
def minDuration : Int := -(2 ^ 63)

/-- Two's-complement wrap-around of `int64` arithmetic. -/
def wrapInt64 (x : Int) : Int := (x + 2 ^ 63) % 2 ^ 64 - 2 ^ 63

/-- Go `time.Since(start)` when read at monotonic clock reading `now`, for a `start` taken
by `time.Now()` at monotonic reading `start`: the saturating difference of the Go library's
`subMono`. -/
def timeSince (now start : Int) : Int :=
  let d := wrapInt64 (now - start)
  if d < 0 ∧ now > start then maxDuration
  else if d > 0 ∧ now < start then minDuration
  else d

/-! ## `cleanMetrics` -/

/-- The inner loop of `cleanMetrics` (lines 104-110) for the split key `n`, entered with the
current value of `deleteThisNodeMetrics`.  The result holds the calls issued and the final
value of the flag, or `none` when an index expression `n[0]`, `n[1]` was out of range. -/
def scanNodes (n : List GoString) : List esnode → Bool → List Event × Option Bool
  | [], deleteThisNodeMetrics => ([], some deleteThisNodeMetrics)
  | node :: rest, deleteThisNodeMetrics =>
    match n[0]? with
    | none => ([], none)
    | some n0 =>
      if node.name = n0 then
        match n[1]? with
        | none => ([], none)
        | some n1 =>
          if node.cluster = n1 then
            let r := scanNodes n rest false
            (Event.log .debug
                ["Metrics are live for node ".toList, n0, " from cluster ".toList, n1,
                 " - keeping them".toList] :: r.1, r.2)
          else scanNodes n rest deleteThisNodeMetrics
      else scanNodes n rest deleteThisNodeMetrics

/-- The calls of lines 112-117 for the split key `n`, or `none` when `n[0]` or `n[1]` is out
of range (the arguments of `log.Info` are evaluated first, so nothing is issued then). -/
def deleteNodeMetrics (n : List GoString) : Option (List Event) :=
  match n[0]?, n[1]? with
  | some n0, some n1 =>
    some [Event.log .info ["Metrics removed for vanished node ".toList, n0,
            " from cluster ".toList, n1],
          Event.deleteLabelValues .elasticNodeAvailabilityGauge [n1, n0],
          Event.deleteLabelValues .nodeSearchLatencySummary [n1, n0],
          Event.deleteLabelValues .shardsSuccessfulGauge [n1, n0],
          Event.deleteLabelValues .docsHitGauge [n1, n0],
          Event.deleteLabelValues .kibanaNodeAvailabilityGauge [n1, n0]]
  | _, _ => none

/-- One iteration of the outer loop (lines 101-118) for one serialized key: the calls issued
and whether the iteration ran to its end (`false`: it panicked). -/
def processKey (nodes : List esnode) (nodeSerializedString : GoString) : List Event × Bool :=
  let n := SplitN nodeSerializedString '|' 2
  match scanNodes n nodes true with
  | (events, none) => (events, false)
  | (events, some false) => (events, true)
  | (events, some true) =>
    match deleteNodeMetrics n with
    | none => (events, false)
    | some deletions => (events ++ deletions, true)

/-- The outer loop (lines 100-119): the calls issued and whether every iteration ran to its
end. -/
def rangeKeys (nodes : List esnode) : List GoString → List Event × Bool
  | [] => ([], true)
  | key :: rest =>
    match processKey nodes key with
    | (events, false) => (events, false)
    | (events, true) =>
      let r := rangeKeys nodes rest
      (events ++ r.1, r.2)

/-- The function `cleanMetrics(nodes, allEverKnownNodes)` (lines 97-124).  `start` is the
monotonic clock reading of `time.Now()` on line 98 and `now` the reading taken by
`time.Since(start)` on line 121. -/
def cleanMetrics (nodes : List esnode) (allEverKnownNodes : List GoString)
    (start now : Int) : Run :=
  match rangeKeys nodes allEverKnownNodes with
  | (events, false) => ⟨events, .panicked⟩
  | (events, true) => ⟨events ++ [Event.observe (timeSince now start)], .returned none⟩

/-! ## The collectors and the effect of a trace -/

/-- The contents of the collectors touched by `cleanMetrics`: for each per-node vector the
label-value tuples (in the order of `MetricVec.labelNames`) that have a child series, and the
observations held by `cleaningMetricsDurationSummary`. -/
structure Registry where
  series : MetricVec → List (List GoString)
  cleaningDurations : List Int

/-- Effect of one call on the collectors.  `DeleteLabelValues(lvs...)` removes the child whose
label values are `lvs`, and does nothing when the number of values differs from the number of
label names or when there is no such child; logging leaves the collectors unchanged. -/
def Registry.applyEvent (r : Registry) : Event → Registry
  | .log _ _ => r
  | .deleteLabelValues vec lvs =>
    { r with series := fun v =>
        if v = vec ∧ lvs.length = vec.labelNames.length then
          (r.series v).filter (fun x => decide (x ≠ lvs))
        else r.series v }
  | .observe d => { r with cleaningDurations := r.cleaningDurations ++ [d] }

/-- Effect of a whole trace, call after call. -/
def Registry.applyTrace (r : Registry) (trace : List Event) : Registry :=
  trace.foldl Registry.applyEvent r

/-- The identity `(cluster, nodename)` has a series in at least one of the five vectors. -/
def Registry.hasSeries (r : Registry) (cluster nodename : GoString) : Prop :=
  ∃ v : MetricVec, [cluster, nodename] ∈ r.series v

/-! ## Reading a trace -/

/-- The label values of a `DeleteLabelValues` call on vector `v`. -/
def Event.deletionOn (v : MetricVec) : Event → Option (List GoString)
  | .deleteLabelValues vec lvs => if vec = v then some lvs else none
  | _ => none

/-- The label values of the `DeleteLabelValues` calls made on vector `v`, in order. -/
def deletionsOn (v : MetricVec) (trace : List Event) : List (List GoString) :=
  trace.filterMap (Event.deletionOn v)

/-- Whether the call is a `DeleteLabelValues`. -/
def Event.isDeletion : Event → Bool
  | .deleteLabelValues _ _ => true
  | _ => false

/-- The duration carried by an `Observe` call. -/
def Event.observed : Event → Option Int
  | .observe d => some d
  | _ => none

/-- The values observed on `cleaningMetricsDurationSummary`, in order. -/
def observations (trace : List Event) : List Int :=
  trace.filterMap Event.observed

/-! ## The reconciliation contract, in the words of the specification -/

/-- A serialized key is well formed when it holds the delimiter. -/
def wellFormedKey (key : GoString) : Prop := '|' ∈ key

instance (key : GoString) : Decidable (wellFormedKey key) := by
  unfold wellFormedKey; infer_instance

/-- Serialized ledger key format of the specification: `<name>|<cluster>`. -/
def specEncode (id : esnode) : GoString := id.name ++ '|' :: id.cluster

/-- Decoding in the words of the specification: split on the first `|` only; a key with no
`|` is malformed. -/
def specDecode (key : GoString) : Option esnode :=
  if '|' ∈ key then
    some ⟨key.takeWhile (fun c => c != '|'), (key.dropWhile (fun c => c != '|')).drop 1⟩
  else none

/-- Membership rule of the specification: an identity is kept when some entry of `liveNodes`
matches both its name and its cluster exactly. -/
def specKept (liveNodes : List esnode) (id : esnode) : Bool :=
  liveNodes.any (fun node => decide (node.name = id.name ∧ node.cluster = id.cluster))

/-- The vanished identities of a pass, in ledger order: the decoded entries of `everKnown`
that are not kept. -/
def specVanished (liveNodes : List esnode) (everKnown : List GoString) : List esnode :=
  (everKnown.filterMap specDecode).filter (fun id => !specKept liveNodes id)

/-- The operation `deleteSeries(cluster, nodename)` of the specification's MetricStore: one
deletion on each of the five per-node vectors, for that label pair. -/
def deleteSeries (cluster nodename : GoString) : List Event :=
  [Event.deleteLabelValues .elasticNodeAvailabilityGauge [cluster, nodename],
   Event.deleteLabelValues .nodeSearchLatencySummary [cluster, nodename],
   Event.deleteLabelValues .shardsSuccessfulGauge [cluster, nodename],
   Event.deleteLabelValues .docsHitGauge [cluster, nodename],
   Event.deleteLabelValues .kibanaNodeAvailabilityGauge [cluster, nodename]]

/-- The debug lines logged while scanning `nodes` for the identity `(n0, n1)`: one per
matching entry. -/
def liveLogs (nodes : List esnode) (n0 n1 : GoString) : List Event :=
  (nodes.filter (fun node => decide (node.name = n0 ∧ node.cluster = n1))).map
    (fun _ => Event.log .debug
      ["Metrics are live for node ".toList, n0, " from cluster ".toList, n1,
       " - keeping them".toList])

/-- The calls of one complete iteration for the identity `id`. -/
def keyEvents (nodes : List esnode) (id : esnode) : List Event :=
  liveLogs nodes id.name id.cluster ++
    (if specKept nodes id then []
     else Event.log .info ["Metrics removed for vanished node ".toList, id.name,
            " from cluster ".toList, id.cluster] :: deleteSeries id.cluster id.name)


/-! ## Splitting a key -/

theorem indexByte_eq_none {s : GoString} {sep : Char} (h : sep ∉ s) :
    indexByte s sep = none := by
  induction s with
  | nil => rfl
  | cons c cs ih =>
    have hc : c ≠ sep := fun e => h (by simp [e])
    have hcs : sep ∉ cs := fun e => h (by simp [e])
    simp [indexByte, hc, ih hcs]

theorem indexByte_of_mem {s : GoString} {sep : Char} (h : sep ∈ s) :
    ∃ m, indexByte s sep = some m ∧
      s.take m = s.takeWhile (fun c => c != sep) ∧
      s.drop (m + 1) = (s.dropWhile (fun c => c != sep)).drop 1 := by
  induction s with
  | nil => simp at h
  | cons c cs ih =>
    by_cases hc : c = sep
    · exact ⟨0, by simp [indexByte, hc], by simp [hc], by simp [hc]⟩
    · have hcs : sep ∈ cs := by
        rcases List.mem_cons.1 h with e | e
        · exact absurd e.symm hc
        · exact e
      obtain ⟨m, h1, h2, h3⟩ := ih hcs
      refine ⟨m + 1, by simp [indexByte, hc, h1], ?_, ?_⟩
      · simp [List.takeWhile_cons, hc, h2]
      · simp [List.dropWhile_cons, hc, h3]

theorem SplitN_two_of_not_mem {s : GoString} (h : '|' ∉ s) : SplitN s '|' 2 = [s] := by
  cases s with
  | nil => rfl
  | cons c cs =>
    have h2 : ¬ (2 > (c :: cs).length + 1) := by simp
    simp only [SplitN, show ¬ ((2 : Int) = 0) by decide, show ¬ ((2 : Int) < 0) by decide,
      if_false, show (2 : Int).toNat = 2 from rfl, h2, show 2 - 1 = 0 + 1 from rfl, splitLoop,
      indexByte_eq_none h]

theorem SplitN_two_of_mem {s : GoString} (h : '|' ∈ s) :
    SplitN s '|' 2 =
      [s.takeWhile (fun c => c != '|'), (s.dropWhile (fun c => c != '|')).drop 1] := by
  obtain ⟨m, h1, h2, h3⟩ := indexByte_of_mem h
  cases s with
  | nil => simp at h
  | cons c cs =>
    have hlen : ¬ (2 > (c :: cs).length + 1) := by simp
    simp only [SplitN, show ¬ ((2 : Int) = 0) by decide, show ¬ ((2 : Int) < 0) by decide,
      if_false, show (2 : Int).toNat = 2 from rfl, hlen, show 2 - 1 = 0 + 1 from rfl, splitLoop,
      h1, h2, h3]

theorem SplitN_two_eq_specDecode {s : GoString} {id : esnode} (h : specDecode s = some id) :
    SplitN s '|' 2 = [id.name, id.cluster] := by
  unfold specDecode at h
  split at h
  · rename_i hm
    rw [SplitN_two_of_mem hm]
    cases h; rfl
  · cases h

theorem specDecode_isSome {s : GoString} (h : wellFormedKey s) :
    ∃ id, specDecode s = some id := by
  unfold wellFormedKey at h
  refine ⟨⟨s.takeWhile (fun c => c != '|'), (s.dropWhile (fun c => c != '|')).drop 1⟩, ?_⟩
  simp only [specDecode, h, if_true]

theorem specEncode_specDecode {s : GoString} {id : esnode} (h : specDecode s = some id) :
    specEncode id = s := by
  unfold specDecode at h
  split at h
  · rename_i hm
    cases h
    simp only [specEncode]
    have h1 : ∀ t : GoString, '|' ∈ t →
        '|' :: (t.dropWhile (fun c => c != '|')).drop 1 = t.dropWhile (fun c => c != '|') := by
      intro t ht
      induction t with
      | nil => simp at ht
      | cons c cs ih =>
        by_cases hc : c = '|'
        · simp [hc]
        · have : '|' ∈ cs := by
            rcases List.mem_cons.1 ht with e | e
            · exact absurd e.symm hc
            · exact e
          have ih2 := ih this
          simp only [List.drop_one] at ih2
          simp [List.dropWhile_cons, hc, ih2]
    rw [h1 s hm, List.takeWhile_append_dropWhile]
  · cases h

theorem specDecode_specEncode (id : esnode) (h : '|' ∉ id.name) :
    specDecode (specEncode id) = some id := by
  have hm : '|' ∈ specEncode id := by simp [specEncode]
  have htw : ∀ (a b : GoString), '|' ∉ a →
      (a ++ '|' :: b).takeWhile (fun c => c != '|') = a ∧
      (a ++ '|' :: b).dropWhile (fun c => c != '|') = '|' :: b := by
    intro a b ha
    induction a with
    | nil => simp
    | cons c cs ih =>
      have hc : c ≠ '|' := fun e => ha (by simp [e])
      have hcs : '|' ∉ cs := fun e => ha (by simp [e])
      simp [List.takeWhile_cons, List.dropWhile_cons, hc, ih hcs]
  obtain ⟨h1, h2⟩ := htw id.name id.cluster h
  simp only [specDecode, hm, if_true]
  simp only [specEncode, h1, h2, List.drop_one, List.tail_cons]


/-! ## The loops -/

theorem scanNodes_pair (n0 n1 : GoString) (nodes : List esnode) (del : Bool) :
    scanNodes [n0, n1] nodes del =
      (liveLogs nodes n0 n1, some (del && !specKept nodes ⟨n0, n1⟩)) := by
  induction nodes generalizing del with
  | nil => simp [scanNodes, liveLogs, specKept]
  | cons node rest ih =>
    by_cases h0 : node.name = n0
    · by_cases h1 : node.cluster = n1
      · simp [scanNodes, h0, h1, ih, liveLogs, specKept]
      · simp [scanNodes, h0, h1, ih, liveLogs, specKept]
    · simp [scanNodes, h0, ih, liveLogs, specKept]

theorem scanNodes_single (k : GoString) (nodes : List esnode) (del : Bool) :
    scanNodes [k] nodes del = ([], none) ∨ scanNodes [k] nodes del = ([], some del) := by
  induction nodes with
  | nil => right; rfl
  | cons node rest ih =>
    by_cases h0 : node.name = k
    · left; simp [scanNodes, h0]
    · simpa [scanNodes, h0] using ih

theorem deleteNodeMetrics_pair (n0 n1 : GoString) :
    deleteNodeMetrics [n0, n1] =
      some (Event.log .info ["Metrics removed for vanished node ".toList, n0,
              " from cluster ".toList, n1] :: deleteSeries n1 n0) := rfl

theorem processKey_of_decode {nodes : List esnode} {key : GoString} {id : esnode}
    (h : specDecode key = some id) : processKey nodes key = (keyEvents nodes id, true) := by
  unfold processKey
  simp only [SplitN_two_eq_specDecode h, scanNodes_pair, Bool.true_and]
  cases hk : specKept nodes id with
  | true => simp [keyEvents, hk]
  | false => simp [keyEvents, hk, deleteNodeMetrics_pair]

theorem processKey_malformed (nodes : List esnode) {key : GoString}
    (h : ¬ wellFormedKey key) : processKey nodes key = ([], false) := by
  unfold processKey
  simp only [SplitN_two_of_not_mem h]
  rcases scanNodes_single key nodes true with e | e
  · rw [e]
  · rw [e]; rfl

theorem rangeKeys_wellFormed (nodes : List esnode) {keys : List GoString}
    (h : ∀ k ∈ keys, wellFormedKey k) :
    rangeKeys nodes keys = ((keys.filterMap specDecode).flatMap (keyEvents nodes), true) := by
  induction keys with
  | nil => rfl
  | cons key rest ih =>
    obtain ⟨id, hid⟩ := specDecode_isSome (h key (by simp))
    have ih2 := ih (fun k hk => h k (by simp [hk]))
    simp [rangeKeys, processKey_of_decode hid, ih2, hid, List.filterMap_cons]

theorem rangeKeys_malformed (nodes : List esnode) {pre : List GoString} {bad : GoString}
    (post : List GoString) (hpre : ∀ k ∈ pre, wellFormedKey k) (hbad : ¬ wellFormedKey bad) :
    rangeKeys nodes (pre ++ bad :: post) =
      ((pre.filterMap specDecode).flatMap (keyEvents nodes), false) := by
  induction pre with
  | nil => simp [rangeKeys, processKey_malformed nodes hbad]
  | cons key rest ih =>
    obtain ⟨id, hid⟩ := specDecode_isSome (hpre key (by simp))
    have ih2 := ih (fun k hk => hpre k (by simp [hk]))
    simp [rangeKeys, processKey_of_decode hid, ih2, hid, List.filterMap_cons]

/-- Every key list is either well formed throughout or splits at its first malformed key. -/
theorem keys_split (keys : List GoString) :
    (∀ k ∈ keys, wellFormedKey k) ∨
      ∃ pre bad post, keys = pre ++ bad :: post ∧ (∀ k ∈ pre, wellFormedKey k) ∧
        ¬ wellFormedKey bad := by
  induction keys with
  | nil => left; simp
  | cons key rest ih =>
    by_cases hk : wellFormedKey key
    · rcases ih with h | ⟨pre, bad, post, e, hp, hb⟩
      · left
        intro k hk2
        rcases List.mem_cons.1 hk2 with e | e
        · exact e ▸ hk
        · exact h k e
      · right
        refine ⟨key :: pre, bad, post, by simp [e], ?_, hb⟩
        intro k hk2
        rcases List.mem_cons.1 hk2 with e | e
        · exact e ▸ hk
        · exact hp k e
    · right
      exact ⟨[], key, rest, rfl, by simp, hk⟩

/-- Whatever the keys, the calls issued by the outer loop are those of complete iterations over
some well-formed keys of the ledger. -/
theorem rangeKeys_events (nodes : List esnode) (keys : List GoString) :
    ∃ pre : List GoString, (∀ k ∈ pre, k ∈ keys ∧ wellFormedKey k) ∧
      (rangeKeys nodes keys).1 = (pre.filterMap specDecode).flatMap (keyEvents nodes) := by
  rcases keys_split keys with h | ⟨pre, bad, post, e, hp, hb⟩
  · exact ⟨keys, fun k hk => ⟨hk, h k hk⟩, by rw [rangeKeys_wellFormed nodes h]⟩
  · refine ⟨pre, fun k hk => ⟨by simp [e, hk], hp k hk⟩, ?_⟩
    rw [e, rangeKeys_malformed nodes post hp hb]

theorem cleanMetrics_wellFormed (nodes : List esnode) {keys : List GoString} (start now : Int)
    (h : ∀ k ∈ keys, wellFormedKey k) :
    cleanMetrics nodes keys start now =
      ⟨(keys.filterMap specDecode).flatMap (keyEvents nodes) ++
          [Event.observe (timeSince now start)], .returned none⟩ := by
  simp [cleanMetrics, rangeKeys_wellFormed nodes h]

theorem cleanMetrics_malformed (nodes : List esnode) {pre : List GoString} {bad : GoString}
    (post : List GoString) (start now : Int)
    (hpre : ∀ k ∈ pre, wellFormedKey k) (hbad : ¬ wellFormedKey bad) :
    cleanMetrics nodes (pre ++ bad :: post) start now =
      ⟨(pre.filterMap specDecode).flatMap (keyEvents nodes), .panicked⟩ := by
  simp [cleanMetrics, rangeKeys_malformed nodes post hpre hbad]


/-! ## Reading the trace of a pass -/

theorem mem_keyEvents_deletion {nodes : List esnode} {id : esnode} {v : MetricVec}
    {lvs : List GoString} (h : Event.deleteLabelValues v lvs ∈ keyEvents nodes id) :
    specKept nodes id = false ∧ lvs = [id.cluster, id.name] := by
  cases hk : specKept nodes id with
  | true => simp [keyEvents, liveLogs, hk] at h
  | false =>
    simp only [keyEvents, liveLogs, hk, deleteSeries, List.mem_append, List.mem_map,
      List.mem_cons] at h
    rcases h with ⟨_, _, h⟩ | h
    · cases h
    · simp at h
      refine ⟨rfl, ?_⟩
      rcases h with h | h | h | h | h <;> exact h.2

theorem deletionsOn_keyEvents (v : MetricVec) (nodes : List esnode) (id : esnode) :
    deletionsOn v (keyEvents nodes id) =
      if specKept nodes id then [] else [[id.cluster, id.name]] := by
  have hlogs : ∀ l : List esnode, deletionsOn v (liveLogs l id.name id.cluster) = [] := by
    intro l
    simp [deletionsOn, liveLogs, List.filterMap_map, Function.comp_def, Event.deletionOn]
  cases hk : specKept nodes id with
  | true =>
    have := hlogs nodes
    simp only [deletionsOn] at this
    simp [deletionsOn, keyEvents, hk, this]
  | false =>
    have := hlogs nodes
    simp only [deletionsOn] at this
    cases v <;>
      simp [deletionsOn, keyEvents, hk, this, List.filterMap_append, deleteSeries,
        List.filterMap_cons, Event.deletionOn]

theorem deletionsOn_flatMap_keyEvents (v : MetricVec) (nodes : List esnode)
    (ids : List esnode) :
    deletionsOn v (ids.flatMap (keyEvents nodes)) =
      (ids.filter (fun id => !specKept nodes id)).map (fun id => [id.cluster, id.name]) := by
  induction ids with
  | nil => rfl
  | cons id rest ih =>
    have h1 : deletionsOn v ((id :: rest).flatMap (keyEvents nodes)) =
        deletionsOn v (keyEvents nodes id) ++ deletionsOn v (rest.flatMap (keyEvents nodes)) := by
      simp [deletionsOn, List.flatMap_cons, List.filterMap_append]
    rw [h1, ih, deletionsOn_keyEvents]
    cases hk : specKept nodes id <;> simp [List.filter_cons, hk]

theorem deletionsOn_append_observe (v : MetricVec) (tr : List Event) (d : Int) :
    deletionsOn v (tr ++ [Event.observe d]) = deletionsOn v tr := by
  simp [deletionsOn, List.filterMap_append, Event.deletionOn]

theorem deletionsOn_wellFormed (v : MetricVec) (nodes : List esnode) {keys : List GoString}
    (start now : Int) (h : ∀ k ∈ keys, wellFormedKey k) :
    deletionsOn v (cleanMetrics nodes keys start now).trace =
      (specVanished nodes keys).map (fun id => [id.cluster, id.name]) := by
  rw [cleanMetrics_wellFormed nodes start now h]
  simp only [deletionsOn_append_observe, deletionsOn_flatMap_keyEvents, specVanished]

theorem filter_isDeletion_keyEvents (nodes : List esnode) (id : esnode) :
    (keyEvents nodes id).filter Event.isDeletion =
      if specKept nodes id then [] else deleteSeries id.cluster id.name := by
  have hlogs : (liveLogs nodes id.name id.cluster).filter Event.isDeletion = [] := by
    simp [liveLogs, List.filter_eq_nil_iff, Event.isDeletion]
  cases hk : specKept nodes id <;>
    simp [keyEvents, hk, hlogs, List.filter_append, deleteSeries, List.filter_cons,
      Event.isDeletion]

theorem filter_isDeletion_flatMap (nodes : List esnode) (ids : List esnode) :
    (ids.flatMap (keyEvents nodes)).filter Event.isDeletion =
      (ids.filter (fun id => !specKept nodes id)).flatMap
        (fun id => deleteSeries id.cluster id.name) := by
  induction ids with
  | nil => rfl
  | cons id rest ih =>
    rw [List.flatMap_cons, List.filter_append, ih, filter_isDeletion_keyEvents]
    cases hk : specKept nodes id <;> simp [List.filter_cons, hk]

theorem observations_keyEvents (nodes : List esnode) (id : esnode) :
    observations (keyEvents nodes id) = [] := by
  have hlogs : (liveLogs nodes id.name id.cluster).filterMap Event.observed = [] := by
    simp [liveLogs, List.filterMap_map, Function.comp_def, Event.observed]
  cases hk : specKept nodes id <;>
    simp [observations, keyEvents, hk, hlogs, List.filterMap_append, deleteSeries,
      List.filterMap_cons, Event.observed]

theorem observations_flatMap_keyEvents (nodes : List esnode) (ids : List esnode) :
    observations (ids.flatMap (keyEvents nodes)) = [] := by
  induction ids with
  | nil => rfl
  | cons id rest ih =>
    have h1 : observations ((id :: rest).flatMap (keyEvents nodes)) =
        observations (keyEvents nodes id) ++ observations (rest.flatMap (keyEvents nodes)) := by
      simp [observations, List.flatMap_cons, List.filterMap_append]
    rw [h1, ih, observations_keyEvents]
    rfl

/-- A deletion found in the trace of any run, completed or not, is the deletion of a decoded
ledger entry that matches no live node. -/
theorem mem_trace_deletion {nodes : List esnode} {keys : List GoString} {start now : Int}
    {v : MetricVec} {lvs : List GoString}
    (h : Event.deleteLabelValues v lvs ∈ (cleanMetrics nodes keys start now).trace) :
    ∃ key ∈ keys, ∃ id, specDecode key = some id ∧ specKept nodes id = false ∧
      lvs = [id.cluster, id.name] := by
  obtain ⟨pre, hpre, hev⟩ := rangeKeys_events nodes keys
  have hmem : Event.deleteLabelValues v lvs ∈ (rangeKeys nodes keys).1 := by
    unfold cleanMetrics at h
    rcases hr : rangeKeys nodes keys with ⟨ev, b⟩
    rw [hr] at h
    cases b <;> simpa using h
  rw [hev, List.mem_flatMap] at hmem
  obtain ⟨id, hid, he⟩ := hmem
  obtain ⟨key, hkey, hdec⟩ := List.mem_filterMap.1 hid
  obtain ⟨hk, hl⟩ := mem_keyEvents_deletion he
  exact ⟨key, (hpre key hkey).1, id, hdec, hk, hl⟩

theorem specKept_eq_false_iff (nodes : List esnode) (id : esnode) :
    specKept nodes id = false ↔
      ∀ node ∈ nodes, ¬ (node.name = id.name ∧ node.cluster = id.cluster) := by
  simp [specKept]

theorem specKept_eq_true_iff (nodes : List esnode) (id : esnode) :
    specKept nodes id = true ↔
      ∃ node ∈ nodes, node.name = id.name ∧ node.cluster = id.cluster := by
  simp [specKept]

theorem mem_specVanished {nodes : List esnode} {keys : List GoString} {id : esnode} :
    id ∈ specVanished nodes keys ↔
      (∃ key ∈ keys, specDecode key = some id) ∧ specKept nodes id = false := by
  simp [specVanished, List.mem_filter, List.mem_filterMap]


/-! ## The collectors after a trace -/

theorem labelNames_length (v : MetricVec) : v.labelNames.length = 2 := by
  cases v <;> rfl

theorem applyEvent_series (r : Registry) (e : Event) (v : MetricVec) :
    (r.applyEvent e).series v =
      (r.series v).filter
        (fun x => !(decide (x ∈ deletionsOn v [e]) && decide (x.length = 2))) := by
  cases e with
  | log lvl args => simp [Registry.applyEvent, deletionsOn, Event.deletionOn]
  | observe d => simp [Registry.applyEvent, deletionsOn, Event.deletionOn]
  | deleteLabelValues vec lvs =>
    by_cases hv : vec = v
    · subst hv
      by_cases hl : lvs.length = 2
      · simp only [Registry.applyEvent, labelNames_length, hl, and_self, if_true, deletionsOn,
          List.filterMap_cons, Event.deletionOn, List.filterMap_nil, List.mem_singleton]
        apply List.filter_congr
        intro x _
        by_cases hx : x = lvs
        · simp [hx, hl]
        · simp [hx]
      · simp only [Registry.applyEvent, labelNames_length, hl, and_false, if_false, deletionsOn,
          List.filterMap_cons, Event.deletionOn, if_true, List.filterMap_nil,
          List.mem_singleton]
        symm
        rw [List.filter_eq_self]
        intro x _
        by_cases hx : x = lvs
        · simp [hx, hl]
        · simp [hx]
    · have hv2 : ¬ v = vec := fun e => hv e.symm
      simp [Registry.applyEvent, hv, hv2, deletionsOn, Event.deletionOn]

theorem applyTrace_series (r : Registry) (tr : List Event) (v : MetricVec) :
    (r.applyTrace tr).series v =
      (r.series v).filter
        (fun x => !(decide (x ∈ deletionsOn v tr) && decide (x.length = 2))) := by
  induction tr generalizing r with
  | nil => simp [Registry.applyTrace, deletionsOn]
  | cons e rest ih =>
    have h1 : r.applyTrace (e :: rest) = (r.applyEvent e).applyTrace rest := rfl
    have h2 : deletionsOn v (e :: rest) = deletionsOn v [e] ++ deletionsOn v rest := by
      simp only [deletionsOn]
      rw [← List.filterMap_append]
      rfl
    rw [h1, ih, applyEvent_series, List.filter_filter, h2]
    apply List.filter_congr
    intro x _
    by_cases ha : x ∈ deletionsOn v [e] <;> by_cases hb : x ∈ deletionsOn v rest <;>
      by_cases hc : x.length = 2 <;> simp [ha, hb, hc]

/-- Membership of a label pair in a vector after a pass over well-formed keys. -/
theorem mem_series_after_pass (r : Registry) (nodes : List esnode) {keys : List GoString}
    (start now : Int) (h : ∀ k ∈ keys, wellFormedKey k) (v : MetricVec)
    (cluster nodename : GoString) :
    [cluster, nodename] ∈ (r.applyTrace (cleanMetrics nodes keys start now).trace).series v ↔
      [cluster, nodename] ∈ r.series v ∧ ⟨nodename, cluster⟩ ∉ specVanished nodes keys := by
  rw [applyTrace_series, deletionsOn_wellFormed v nodes start now h, List.mem_filter]
  have : [cluster, nodename] ∈
      (specVanished nodes keys).map (fun id => [id.cluster, id.name]) ↔
      (⟨nodename, cluster⟩ : esnode) ∈ specVanished nodes keys := by
    constructor
    · intro hm
      obtain ⟨id, hid, he⟩ := List.mem_map.1 hm
      obtain ⟨name, cl⟩ := id
      simp at he
      obtain ⟨h1, h2⟩ := he
      subst h1; subst h2
      exact hid
    · intro hm
      exact List.mem_map.2 ⟨_, hm, rfl⟩
  simp [this]

/-! ## Counting -/

theorem specDecode_injective {k1 k2 : GoString} {id : esnode}
    (h1 : specDecode k1 = some id) (h2 : specDecode k2 = some id) : k1 = k2 := by
  rw [← specEncode_specDecode h1, ← specEncode_specDecode h2]

theorem specVanished_cons (nodes : List esnode) (key : GoString) (rest : List GoString)
    {id : esnode} (h : specDecode key = some id) :
    specVanished nodes (key :: rest) =
      if specKept nodes id then specVanished nodes rest else id :: specVanished nodes rest := by
  cases hk : specKept nodes id <;> simp [specVanished, List.filterMap_cons, h, List.filter_cons, hk]

theorem count_specVanished (nodes : List esnode) {keys : List GoString}
    (hwf : ∀ k ∈ keys, wellFormedKey k) {key : GoString} {id : esnode}
    (hid : specDecode key = some id) (hk : specKept nodes id = false) :
    ((specVanished nodes keys).map (fun i => [i.cluster, i.name])).count [id.cluster, id.name] =
      keys.count key := by
  induction keys with
  | nil => rfl
  | cons k rest ih =>
    have ih2 := ih (fun x hx => hwf x (by simp [hx]))
    obtain ⟨idk, hidk⟩ := specDecode_isSome (hwf k (by simp))
    rw [specVanished_cons nodes k rest hidk]
    by_cases hkk : k = key
    · subst hkk
      have : idk = id := by rw [hidk] at hid; exact Option.some.inj hid
      subst this
      simp [hk, ih2]
    · have hne : idk ≠ id := by
        intro e
        subst e
        exact hkk (specDecode_injective hidk hid)
      have hne2 : ([idk.cluster, idk.name] == [id.cluster, id.name]) = false := by
        obtain ⟨a, b⟩ := idk
        obtain ⟨c, d⟩ := id
        simp only [beq_eq_false_iff_ne, ne_eq, List.cons.injEq, and_true, not_and]
        intro e1 e2
        exact hne (by rw [e1, e2])
      have hkk2 : (k == key) = false := by simpa using hkk
      cases hkept : specKept nodes idk
      · simp only [Bool.false_eq_true, if_false, List.map_cons, List.count_cons, hne2, ih2, hkk2]
      · simp only [if_true, List.count_cons, ih2, hkk2]
        simp

theorem specKept_congr {nodes nodes' : List esnode} (h : ∀ x, x ∈ nodes ↔ x ∈ nodes')
    (id : esnode) : specKept nodes id = specKept nodes' id := by
  cases hk : specKept nodes' id with
  | true =>
    obtain ⟨node, hn, hm⟩ := (specKept_eq_true_iff nodes' id).1 hk
    exact (specKept_eq_true_iff nodes id).2 ⟨node, (h node).2 hn, hm⟩
  | false =>
    rw [specKept_eq_false_iff] at hk ⊢
    intro node hn
    exact hk node ((h node).1 hn)


/-! ## Completion and the clock -/

theorem mem_deletionsOn {v : MetricVec} {lvs : List GoString} {tr : List Event} :
    lvs ∈ deletionsOn v tr ↔ Event.deleteLabelValues v lvs ∈ tr := by
  simp only [deletionsOn, List.mem_filterMap]
  constructor
  · rintro ⟨e, he, hd⟩
    cases e with
    | log lvl args => simp [Event.deletionOn] at hd
    | observe d => simp [Event.deletionOn] at hd
    | deleteLabelValues vec l =>
      by_cases hv : vec = v
      · simp [Event.deletionOn, hv] at hd
        rw [← hd, ← hv]
        exact he
      · simp [Event.deletionOn, hv] at hd
  · intro h
    exact ⟨_, h, by simp [Event.deletionOn]⟩

theorem wellFormed_of_returned {nodes : List esnode} {keys : List GoString} {start now : Int}
    {err : Option GoString} (h : (cleanMetrics nodes keys start now).outcome = .returned err) :
    ∀ k ∈ keys, wellFormedKey k := by
  rcases keys_split keys with hwf | ⟨pre, bad, post, e, hp, hb⟩
  · exact hwf
  · rw [e, cleanMetrics_malformed nodes post start now hp hb] at h
    cases h

theorem returned_err_eq_none {nodes : List esnode} {keys : List GoString} {start now : Int}
    {err : Option GoString} (h : (cleanMetrics nodes keys start now).outcome = .returned err) :
    err = none := by
  have hwf := wellFormed_of_returned h
  rw [cleanMetrics_wellFormed nodes start now hwf] at h
  simp at h
  exact h.symm

theorem count_eq_one_of_nodup {α : Type} [BEq α] [LawfulBEq α] {l : List α} {a : α}
    (hnd : l.Nodup) (hmem : a ∈ l) : l.count a = 1 := by
  induction l with
  | nil => simp at hmem
  | cons x rest ih =>
    obtain ⟨hx, hrest⟩ := List.nodup_cons.1 hnd
    by_cases hxa : x = a
    · subst hxa
      simp [List.count_cons, List.count_eq_zero_of_not_mem hx]
    · have hm : a ∈ rest := by
        rcases List.mem_cons.1 hmem with e | e
        · exact absurd e.symm hxa
        · exact e
      have hb : (x == a) = false := by simpa using hxa
      simp [List.count_cons, ih hrest hm, hb]

theorem wrapInt64_zero : wrapInt64 0 = 0 := by decide

theorem timeSince_nonneg {start now : Int} (h : start ≤ now) : 0 ≤ timeSince now start := by
  unfold timeSince
  simp only
  split
  · decide
  · rename_i h1
    split
    · rename_i h2
      omega
    · rcases lt_or_eq_of_le h with hlt | heq
      · by_contra hneg
        exact h1 ⟨by omega, hlt⟩
      · subst heq
        simp [wrapInt64_zero]


/-! ## Properties of the pass -/

/-- C1: no deletion is issued for a live identity.  Whenever the trace of `cleanMetrics`
holds a call `DeleteLabelValues(cluster, name)` on any of the five vectors, no entry of
`nodes` has that name and that cluster.  This holds for every run, completed or not. -/
theorem cleanMetrics_spares_live_nodes (nodes : List esnode) (everKnown : List GoString)
    (start now : Int) (v : MetricVec) (cluster name : GoString)
    (h : Event.deleteLabelValues v [cluster, name] ∈
      (cleanMetrics nodes everKnown start now).trace) :
    ¬ ∃ node ∈ nodes, node.name = name ∧ node.cluster = cluster := by
  obtain ⟨key, _, id, _, hk, hl⟩ := mem_trace_deletion h
  obtain ⟨n, c⟩ := id
  simp only [List.cons.injEq, and_true] at hl
  obtain ⟨h1, h2⟩ := hl
  subst h1; subst h2
  rintro ⟨node, hn, hm⟩
  exact (specKept_eq_false_iff nodes _).1 hk node hn hm

/-- C1 at the ledger `n1|c1, n2|c1, n3|c2` with live nodes `n1/c1` and `n3/c2`: the deletion
issued for `(c1, n2)` on `es_node_documents_hit` is not the deletion of a live node. -/
theorem cleanMetrics_spares_live_nodes_witness :
    Event.deleteLabelValues .docsHitGauge ["c1".toList, "n2".toList] ∈
        (cleanMetrics [⟨"n1".toList, "c1".toList⟩, ⟨"n3".toList, "c2".toList⟩]
          ["n1|c1".toList, "n2|c1".toList, "n3|c2".toList] 0 7).trace ∧
      ¬ ∃ node ∈ [(⟨"n1".toList, "c1".toList⟩ : esnode), ⟨"n3".toList, "c2".toList⟩],
          node.name = "n2".toList ∧ node.cluster = "c1".toList :=
  ⟨by decide,
   cleanMetrics_spares_live_nodes [⟨"n1".toList, "c1".toList⟩, ⟨"n3".toList, "c2".toList⟩]
     ["n1|c1".toList, "n2|c1".toList, "n3|c2".toList] 0 7 .docsHitGauge "c1".toList "n2".toList
     (by decide)⟩

/-- C2: on a ledger of well-formed keys the deletion calls of the pass are exactly, in ledger
order, one `deleteSeries(cluster, name)` for each decoded entry that matches no live node on
both name and cluster; entries with a matching live node produce no call. -/
theorem cleanMetrics_deletes_exactly_vanished (nodes : List esnode)
    (everKnown : List GoString) (start now : Int)
    (h : ∀ key ∈ everKnown, wellFormedKey key) :
    (cleanMetrics nodes everKnown start now).trace.filter Event.isDeletion =
      (specVanished nodes everKnown).flatMap (fun id => deleteSeries id.cluster id.name) := by
  rw [cleanMetrics_wellFormed nodes start now h]
  simp only [List.filter_append, filter_isDeletion_flatMap, specVanished]
  simp [Event.isDeletion]

/-- C2 on the two scenarios of the specification: ledger `n1|c1, n2|c1, n3|c2` with live
nodes `n1/c1`, `n3/c2` gives the single call `deleteSeries(c1, n2)`; the empty ledger with
live node `n1/c1` gives no call. -/
theorem cleanMetrics_deletes_exactly_vanished_witness :
    ((cleanMetrics [⟨"n1".toList, "c1".toList⟩, ⟨"n3".toList, "c2".toList⟩]
        ["n1|c1".toList, "n2|c1".toList, "n3|c2".toList] 0 7).trace.filter Event.isDeletion =
      deleteSeries "c1".toList "n2".toList) ∧
    ((cleanMetrics [⟨"n1".toList, "c1".toList⟩] [] 0 7).trace.filter Event.isDeletion = []) :=
  ⟨(cleanMetrics_deletes_exactly_vanished
      [⟨"n1".toList, "c1".toList⟩, ⟨"n3".toList, "c2".toList⟩]
      ["n1|c1".toList, "n2|c1".toList, "n3|c2".toList] 0 7 (by decide)).trans (by decide),
   (cleanMetrics_deletes_exactly_vanished [⟨"n1".toList, "c1".toList⟩] [] 0 7
      (by decide)).trans (by decide)⟩

/-- C3, refuted as stated: with the key `n1|c1` held twice by the ledger and no live node,
the pass invokes `deleteSeries(c1, n1)` twice, and each vector receives the pair twice. -/
theorem duplicate_key_is_deleted_twice :
    (cleanMetrics [] ["n1|c1".toList, "n1|c1".toList] 0 7).trace.filter Event.isDeletion =
        deleteSeries "c1".toList "n1".toList ++ deleteSeries "c1".toList "n1".toList ∧
      (deletionsOn .elasticNodeAvailabilityGauge
        (cleanMetrics [] ["n1|c1".toList, "n1|c1".toList] 0 7).trace).count
          ["c1".toList, "n1".toList] = 2 := by
  decide

/-- C3, amended: on a ledger of well-formed keys, for every key of the ledger whose decoded
identity matches no live node, each vector receives the deletion of that identity exactly as
many times as the key occurs in the ledger: at least once, and exactly once when the ledger
holds no key twice. -/
theorem vanished_key_deleted_once_per_occurrence (nodes : List esnode)
    (everKnown : List GoString) (start now : Int)
    (h : ∀ key ∈ everKnown, wellFormedKey key)
    (key : GoString) (id : esnode) (hmem : key ∈ everKnown)
    (hid : specDecode key = some id)
    (hvan : ¬ ∃ node ∈ nodes, node.name = id.name ∧ node.cluster = id.cluster)
    (v : MetricVec) :
    (deletionsOn v (cleanMetrics nodes everKnown start now).trace).count
        [id.cluster, id.name] = everKnown.count key ∧
      1 ≤ everKnown.count key ∧
      (everKnown.Nodup →
        (deletionsOn v (cleanMetrics nodes everKnown start now).trace).count
          [id.cluster, id.name] = 1) := by
  have hk : specKept nodes id = false := by
    rw [specKept_eq_false_iff]
    intro node hn hm
    exact hvan ⟨node, hn, hm⟩
  have hc : (deletionsOn v (cleanMetrics nodes everKnown start now).trace).count
      [id.cluster, id.name] = everKnown.count key := by
    rw [deletionsOn_wellFormed v nodes start now h]
    exact count_specVanished nodes h hid hk
  refine ⟨hc, List.count_pos_iff.2 hmem, ?_⟩
  intro hnd
  rw [hc]
  exact count_eq_one_of_nodup hnd hmem

/-- C3 amended, on the scenario of the specification: ledger `n1|c1`, no live node; each
vector, here `es_node_availability`, receives the deletion of `(c1, n1)` exactly once. -/
theorem vanished_key_deleted_once_per_occurrence_witness :
    (deletionsOn .elasticNodeAvailabilityGauge
      (cleanMetrics [] ["n1|c1".toList] 0 7).trace).count ["c1".toList, "n1".toList] = 1 :=
  (vanished_key_deleted_once_per_occurrence [] ["n1|c1".toList] 0 7 (by decide)
    "n1|c1".toList ⟨"n1".toList, "c1".toList⟩ (by decide) (by decide) (by simp)
    .elasticNodeAvailabilityGauge).2.2 (by decide)


/-- C4, refuted as stated: with the ledger `n1, n2|c1` and no live node, the key `n1` holds
no delimiter and the run panics on it; the vanished identity `n2/c1` that follows is not
processed (no call at all is issued) and no duration is observed. -/
theorem malformed_key_aborts_pass :
    (cleanMetrics [] ["n1".toList, "n2|c1".toList] 0 7).outcome = Outcome.panicked ∧
      (cleanMetrics [] ["n1".toList, "n2|c1".toList] 0 7).trace = [] ∧
      (cleanMetrics [] ["n2|c1".toList] 0 7).trace.filter Event.isDeletion =
        deleteSeries "c1".toList "n2".toList := by
  decide

/-- C4, amended: when the ledger holds a key with no delimiter, `cleanMetrics` does not skip
it.  The run panics at the first such key: the keys before it are processed as in a pass over
them alone (their vanished identities are deleted), the keys after it are not processed, and
the pass ends without a duration observation and without returning. -/
theorem malformed_key_panics_at_first (nodes : List esnode) (everKnown : List GoString)
    (start now : Int) (h : ∃ key ∈ everKnown, ¬ wellFormedKey key) :
    (cleanMetrics nodes everKnown start now).outcome = Outcome.panicked ∧
      ∃ pre bad post, everKnown = pre ++ bad :: post ∧
        (∀ key ∈ pre, wellFormedKey key) ∧ ¬ wellFormedKey bad ∧
        (cleanMetrics nodes pre start now).outcome = Outcome.returned none ∧
        (cleanMetrics nodes pre start now).trace =
          (cleanMetrics nodes everKnown start now).trace ++
            [Event.observe (timeSince now start)] ∧
        observations (cleanMetrics nodes everKnown start now).trace = [] := by
  rcases keys_split everKnown with hwf | ⟨pre, bad, post, e, hp, hb⟩
  · obtain ⟨key, hk, hbad⟩ := h
    exact absurd (hwf key hk) hbad
  · subst e
    rw [cleanMetrics_malformed nodes post start now hp hb]
    refine ⟨rfl, pre, bad, post, rfl, hp, hb, ?_, ?_, ?_⟩
    · rw [cleanMetrics_wellFormed nodes start now hp]
    · rw [cleanMetrics_wellFormed nodes start now hp]
    · exact observations_flatMap_keyEvents nodes _

/-- C4 amended, at the ledger `n2|c1, n1, n3|c2` with live node `n1/c1`: the run panics at
`n1`. -/
theorem malformed_key_panics_at_first_witness :
    (cleanMetrics [⟨"n1".toList, "c1".toList⟩]
      ["n2|c1".toList, "n1".toList, "n3|c2".toList] 0 7).outcome = Outcome.panicked :=
  (malformed_key_panics_at_first [⟨"n1".toList, "c1".toList⟩]
    ["n2|c1".toList, "n1".toList, "n3|c2".toList] 0 7
    ⟨"n1".toList, by decide, by decide⟩).1

/-- C5, refuted as stated: for the identity with name `a|b` and cluster `c`, the key
`a|b|c` splits into `a` and `b|c`, not into the original fields. -/
theorem decode_loses_name_with_delimiter :
    SplitN ("a|b".toList ++ "|".toList ++ "c".toList) '|' 2 = ["a".toList, "b|c".toList] ∧
      SplitN ("a|b".toList ++ "|".toList ++ "c".toList) '|' 2 ≠ ["a|b".toList, "c".toList] := by
  decide

/-- C5, amended: for every identity whose name holds no `|` (the cluster may hold any
character), splitting the key `name ++ "|" ++ cluster` with `SplitN(key, "|", 2)` yields
exactly two elements, the name at index 0 and the cluster at index 1. -/
theorem decode_roundtrip (name cluster : GoString) (h : '|' ∉ name) :
    SplitN (name ++ "|".toList ++ cluster) '|' 2 = [name, cluster] := by
  have h1 := specDecode_specEncode ⟨name, cluster⟩ h
  have h2 := SplitN_two_eq_specDecode h1
  simpa [specEncode] using h2

/-- C5 amended, on the key of the specification: `nodeA|clusterX` decodes to name `nodeA`
and cluster `clusterX`. -/
theorem decode_roundtrip_witness :
    SplitN ("nodeA".toList ++ "|".toList ++ "clusterX".toList) '|' 2 =
      ["nodeA".toList, "clusterX".toList] :=
  decode_roundtrip "nodeA".toList "clusterX".toList (by decide)

/-- C6: post-pass store invariant.  If every key of the ledger is well formed, every identity
with a series is the decoding of some key of the ledger, and every live identity has a
series, then the pass returns and afterwards the identities with a series are exactly the
identities of `nodes`. -/
theorem series_equal_live_after_pass (r : Registry) (nodes : List esnode)
    (everKnown : List GoString) (start now : Int)
    (hwf : ∀ key ∈ everKnown, wellFormedKey key)
    (hsub : ∀ cluster nodename, r.hasSeries cluster nodename →
      ∃ key ∈ everKnown, specDecode key = some ⟨nodename, cluster⟩)
    (hlive : ∀ node ∈ nodes, r.hasSeries node.cluster node.name) :
    (cleanMetrics nodes everKnown start now).outcome = Outcome.returned none ∧
      ∀ cluster nodename,
        (r.applyTrace (cleanMetrics nodes everKnown start now).trace).hasSeries
            cluster nodename ↔
          ∃ node ∈ nodes, node.name = nodename ∧ node.cluster = cluster := by
  refine ⟨by rw [cleanMetrics_wellFormed nodes start now hwf], ?_⟩
  intro cluster nodename
  constructor
  · rintro ⟨v, hv⟩
    obtain ⟨hin, hnot⟩ := (mem_series_after_pass r nodes start now hwf v cluster nodename).1 hv
    obtain ⟨key, hkey, hdec⟩ := hsub cluster nodename ⟨v, hin⟩
    have hk : specKept nodes ⟨nodename, cluster⟩ = true := by
      by_contra hc
      have hc2 : specKept nodes ⟨nodename, cluster⟩ = false := by simpa using hc
      exact hnot (mem_specVanished.2 ⟨⟨key, hkey, hdec⟩, hc2⟩)
    exact (specKept_eq_true_iff nodes _).1 hk
  · rintro ⟨node, hn, h1, h2⟩
    obtain ⟨v, hv⟩ := hlive node hn
    rw [h1, h2] at hv
    refine ⟨v, (mem_series_after_pass r nodes start now hwf v cluster nodename).2 ⟨hv, ?_⟩⟩
    intro hm
    have hk := (mem_specVanished.1 hm).2
    exact (specKept_eq_false_iff nodes _).1 hk node hn ⟨h1, h2⟩

/-- C6 at the ledger `n1|c1, n2|c1` with live node `n1/c1` and a store that holds a latency
series for both identities: after the pass `(c1, n2)` has a series exactly if it is live. -/
theorem series_equal_live_after_pass_witness :
    (Registry.applyTrace
        ⟨fun v => if v = .nodeSearchLatencySummary then
            [["c1".toList, "n1".toList], ["c1".toList, "n2".toList]] else [], []⟩
        (cleanMetrics [⟨"n1".toList, "c1".toList⟩]
          ["n1|c1".toList, "n2|c1".toList] 0 7).trace).hasSeries "c1".toList "n2".toList ↔
      ∃ node ∈ [(⟨"n1".toList, "c1".toList⟩ : esnode)],
        node.name = "n2".toList ∧ node.cluster = "c1".toList :=
  (series_equal_live_after_pass
    ⟨fun v => if v = .nodeSearchLatencySummary then
        [["c1".toList, "n1".toList], ["c1".toList, "n2".toList]] else [], []⟩
    [⟨"n1".toList, "c1".toList⟩] ["n1|c1".toList, "n2|c1".toList] 0 7 (by decide)
    (by
      rintro cluster nodename ⟨v, hv⟩
      by_cases hvv : v = .nodeSearchLatencySummary
      · simp only [hvv, if_true, List.mem_cons, List.cons.injEq, and_true,
          List.mem_nil_iff, or_false] at hv
        rcases hv with ⟨h1, h2⟩ | ⟨h1, h2⟩
        · subst h1; subst h2
          exact ⟨"n1|c1".toList, by decide, by decide⟩
        · subst h1; subst h2
          exact ⟨"n2|c1".toList, by decide, by decide⟩
      · simp [hvv] at hv)
    (by
      intro node hn
      simp only [List.mem_singleton] at hn
      subst hn
      exact ⟨.nodeSearchLatencySummary, by decide⟩)).2 "c1".toList "n2".toList


/-- C7: duplicates and order do not change the outcome.  For two passes over well-formed
ledgers that hold the same set of keys, with live lists that hold the same set of
identities (whatever the two clocks read): every well-formed key gets the same keep/vanish
verdict from the inner loop, each vector receives deletions for the same set of label pairs,
and from any initial store the five vectors end with the same contents. -/
theorem outcome_depends_on_sets_only (nodes nodes' : List esnode)
    (everKnown everKnown' : List GoString) (start now start' now' : Int)
    (hwf : ∀ key ∈ everKnown, wellFormedKey key)
    (hwf' : ∀ key ∈ everKnown', wellFormedKey key)
    (hnodes : ∀ x, x ∈ nodes ↔ x ∈ nodes')
    (hkeys : ∀ key, key ∈ everKnown ↔ key ∈ everKnown') :
    (∀ key, wellFormedKey key →
        (scanNodes (SplitN key '|' 2) nodes true).2 =
          (scanNodes (SplitN key '|' 2) nodes' true).2) ∧
      (∀ v lvs, lvs ∈ deletionsOn v (cleanMetrics nodes everKnown start now).trace ↔
        lvs ∈ deletionsOn v (cleanMetrics nodes' everKnown' start' now').trace) ∧
      (∀ (r : Registry) v,
        (r.applyTrace (cleanMetrics nodes everKnown start now).trace).series v =
          (r.applyTrace (cleanMetrics nodes' everKnown' start' now').trace).series v) := by
  have hdel : ∀ v lvs, lvs ∈ deletionsOn v (cleanMetrics nodes everKnown start now).trace ↔
      lvs ∈ deletionsOn v (cleanMetrics nodes' everKnown' start' now').trace := by
    intro v lvs
    rw [deletionsOn_wellFormed v nodes start now hwf,
      deletionsOn_wellFormed v nodes' start' now' hwf']
    simp only [List.mem_map, mem_specVanished]
    constructor
    · rintro ⟨id, ⟨⟨key, hk, hd⟩, hkept⟩, he⟩
      exact ⟨id, ⟨⟨key, (hkeys key).1 hk, hd⟩, by rw [← specKept_congr hnodes]; exact hkept⟩, he⟩
    · rintro ⟨id, ⟨⟨key, hk, hd⟩, hkept⟩, he⟩
      exact ⟨id, ⟨⟨key, (hkeys key).2 hk, hd⟩, by rw [specKept_congr hnodes]; exact hkept⟩, he⟩
  refine ⟨?_, hdel, ?_⟩
  · intro key hkey
    obtain ⟨id, hid⟩ := specDecode_isSome hkey
    rw [SplitN_two_eq_specDecode hid, scanNodes_pair, scanNodes_pair, specKept_congr hnodes]
  · intro r v
    rw [applyTrace_series, applyTrace_series]
    apply List.filter_congr
    intro x _
    have := hdel v x
    by_cases hx : x ∈ deletionsOn v (cleanMetrics nodes everKnown start now).trace
    · simp [hx, this.1 hx]
    · have hx' : x ∉ deletionsOn v (cleanMetrics nodes' everKnown' start' now').trace :=
        fun h => hx (this.2 h)
      simp [hx, hx']

/-- C7 on a reordered ledger with a repeated key and a reordered live list with a repeated
node: the latency vector of a store holding `(c1, n1)` and `(c1, n2)` ends the same. -/
theorem outcome_depends_on_sets_only_witness :
    ((Registry.mk (fun _ => [["c1".toList, "n1".toList], ["c1".toList, "n2".toList]])
        []).applyTrace
      (cleanMetrics [⟨"n1".toList, "c1".toList⟩, ⟨"n3".toList, "c2".toList⟩]
        ["n1|c1".toList, "n2|c1".toList] 0 7).trace).series .nodeSearchLatencySummary =
    ((Registry.mk (fun _ => [["c1".toList, "n1".toList], ["c1".toList, "n2".toList]])
        []).applyTrace
      (cleanMetrics [⟨"n3".toList, "c2".toList⟩, ⟨"n1".toList, "c1".toList⟩,
          ⟨"n3".toList, "c2".toList⟩]
        ["n2|c1".toList, "n1|c1".toList, "n2|c1".toList] 3 4).trace).series
      .nodeSearchLatencySummary :=
  (outcome_depends_on_sets_only
    [⟨"n1".toList, "c1".toList⟩, ⟨"n3".toList, "c2".toList⟩]
    [⟨"n3".toList, "c2".toList⟩, ⟨"n1".toList, "c1".toList⟩, ⟨"n3".toList, "c2".toList⟩]
    ["n1|c1".toList, "n2|c1".toList] ["n2|c1".toList, "n1|c1".toList, "n2|c1".toList]
    0 7 3 4 (by decide) (by decide)
    (by intro x; simp only [List.mem_cons, List.mem_nil_iff, or_false]; tauto)
    (by intro x; simp only [List.mem_cons, List.mem_nil_iff, or_false]; tauto)).2.2
    (Registry.mk (fun _ => [["c1".toList, "n1".toList], ["c1".toList, "n2".toList]]) [])
    .nodeSearchLatencySummary

theorem rangeKeys_append (nodes : List esnode) {pre : List GoString} (rest : List GoString)
    (hpre : ∀ k ∈ pre, wellFormedKey k) :
    rangeKeys nodes (pre ++ rest) =
      ((pre.filterMap specDecode).flatMap (keyEvents nodes) ++ (rangeKeys nodes rest).1,
        (rangeKeys nodes rest).2) := by
  induction pre with
  | nil => simp
  | cons key more ih =>
    obtain ⟨id, hid⟩ := specDecode_isSome (hpre key (by simp))
    have ih2 := ih (fun k hk => hpre k (by simp [hk]))
    simp [rangeKeys, processKey_of_decode hid, ih2, hid, List.filterMap_cons]

theorem mem_trace_of_mem_rangeKeys {nodes : List esnode} {keys : List GoString}
    (start now : Int) {e : Event} (h : e ∈ (rangeKeys nodes keys).1) :
    e ∈ (cleanMetrics nodes keys start now).trace := by
  unfold cleanMetrics
  rcases hr : rangeKeys nodes keys with ⟨ev, b⟩
  rw [hr] at h
  cases b
  · simpa using h
  · simp only [List.mem_append]
    exact Or.inl h

/-- Whatever the keys, the deletions received by a vector are those of the vanished identities
of some well-formed keys of the ledger, the same keys for every vector. -/
theorem deletionsOn_trace (nodes : List esnode) (keys : List GoString) (start now : Int) :
    ∃ pre : List GoString, (∀ k ∈ pre, k ∈ keys ∧ wellFormedKey k) ∧
      ∀ v, deletionsOn v (cleanMetrics nodes keys start now).trace =
        (specVanished nodes pre).map (fun i => [i.cluster, i.name]) := by
  obtain ⟨pre, hpre, hev⟩ := rangeKeys_events nodes keys
  refine ⟨pre, hpre, ?_⟩
  intro v
  have h1 : deletionsOn v (cleanMetrics nodes keys start now).trace =
      deletionsOn v (rangeKeys nodes keys).1 := by
    unfold cleanMetrics
    rcases rangeKeys nodes keys with ⟨ev, b⟩
    cases b
    · rfl
    · exact deletionsOn_append_observe v ev _
  rw [h1, hev, deletionsOn_flatMap_keyEvents]
  rfl

/-- C8, refuted as stated: with the ledger `n1, n2|c1` and no live node, the identity `n2/c1`
decoded from the second key is vanished, yet no vector receives a deletion for it: the run
has panicked on the key `n1` before reaching it. -/
theorem vanished_behind_malformed_key_keeps_series :
    specDecode "n2|c1".toList = some ⟨"n2".toList, "c1".toList⟩ ∧
      specKept [] ⟨"n2".toList, "c1".toList⟩ = false ∧
      deletionsOn .elasticNodeAvailabilityGauge
        (cleanMetrics [] ["n1".toList, "n2|c1".toList] 0 7).trace = [] ∧
      deletionsOn .nodeSearchLatencySummary
        (cleanMetrics [] ["n1".toList, "n2|c1".toList] 0 7).trace = [] ∧
      deletionsOn .shardsSuccessfulGauge
        (cleanMetrics [] ["n1".toList, "n2|c1".toList] 0 7).trace = [] ∧
      deletionsOn .docsHitGauge
        (cleanMetrics [] ["n1".toList, "n2|c1".toList] 0 7).trace = [] ∧
      deletionsOn .kibanaNodeAvailabilityGauge
        (cleanMetrics [] ["n1".toList, "n2|c1".toList] 0 7).trace = [] := by
  decide

/-- C8, amended: for every key of the ledger that is preceded only by well-formed keys (the
keys after it may be anything) and whose decoded identity matches no live node, each of the
five vectors `es_node_availability`, `es_node_search_latency`, `es_node_shards_successful`,
`es_node_documents_hit` and `kibana_node_availability` receives a deletion whose values
follow the declared label order: `cluster` is the part of the key after its first `|` and
`nodename` the part before it.  In every run, each deletion in the trace carries the
`(cluster, name)` of a vanished decoded key, in that order, and the five vectors receive the
same sequence of deletions, so no vector is skipped and none gets the values swapped. -/
theorem reached_vanished_deleted_on_all_five_vectors (nodes : List esnode)
    (pre : List GoString) (key : GoString) (post : List GoString) (start now : Int)
    (hpre : ∀ k ∈ pre, wellFormedKey k)
    (id : esnode) (hid : specDecode key = some id)
    (hvan : ¬ ∃ node ∈ nodes, node.name = id.name ∧ node.cluster = id.cluster) :
    (id.name = key.takeWhile (fun c => c != '|') ∧
      id.cluster = (key.dropWhile (fun c => c != '|')).drop 1) ∧
    (∀ m ∈ ["es_node_availability", "es_node_search_latency", "es_node_shards_successful",
        "es_node_documents_hit", "kibana_node_availability"],
      ∃ v : MetricVec, v.metricName = m ∧
        Event.deleteLabelValues v [id.cluster, id.name] ∈
          (cleanMetrics nodes (pre ++ key :: post) start now).trace ∧
        v.labelNames.zip [id.cluster, id.name] =
          [("cluster", id.cluster), ("nodename", id.name)]) ∧
    (∀ v : MetricVec,
      Event.deleteLabelValues v [id.cluster, id.name] ∈
          (cleanMetrics nodes (pre ++ key :: post) start now).trace ∧
        v.labelNames.zip [id.cluster, id.name] =
          [("cluster", id.cluster), ("nodename", id.name)]) ∧
    (∀ (v : MetricVec) (lvs : List GoString),
      Event.deleteLabelValues v lvs ∈
          (cleanMetrics nodes (pre ++ key :: post) start now).trace →
        ∃ key' ∈ pre ++ key :: post, ∃ id', specDecode key' = some id' ∧
          (¬ ∃ node ∈ nodes, node.name = id'.name ∧ node.cluster = id'.cluster) ∧
          lvs = [id'.cluster, id'.name]) ∧
    (∀ v v' : MetricVec,
      deletionsOn v (cleanMetrics nodes (pre ++ key :: post) start now).trace =
        deletionsOn v' (cleanMetrics nodes (pre ++ key :: post) start now).trace) := by
  have hk : specKept nodes id = false := by
    rw [specKept_eq_false_iff]
    intro node hn hm
    exact hvan ⟨node, hn, hm⟩
  have hfields : id.name = key.takeWhile (fun c => c != '|') ∧
      id.cluster = (key.dropWhile (fun c => c != '|')).drop 1 := by
    unfold specDecode at hid
    split at hid
    · cases hid
      exact ⟨rfl, rfl⟩
    · cases hid
  have hall : ∀ v : MetricVec,
      Event.deleteLabelValues v [id.cluster, id.name] ∈
          (cleanMetrics nodes (pre ++ key :: post) start now).trace ∧
        v.labelNames.zip [id.cluster, id.name] =
          [("cluster", id.cluster), ("nodename", id.name)] := by
    intro v
    refine ⟨?_, by cases v <;> rfl⟩
    apply mem_trace_of_mem_rangeKeys
    rw [rangeKeys_append nodes (key :: post) hpre]
    have hkey : (rangeKeys nodes (key :: post)).1 =
        keyEvents nodes id ++ (rangeKeys nodes post).1 := by
      simp [rangeKeys, processKey_of_decode hid]
    have hin : Event.deleteLabelValues v [id.cluster, id.name] ∈ keyEvents nodes id := by
      cases v <;> simp [keyEvents, hk, deleteSeries]
    simp only [hkey, List.mem_append]
    exact Or.inr (Or.inl hin)
  refine ⟨hfields, ?_, hall, ?_, ?_⟩
  · intro m hm
    simp only [List.mem_cons, List.mem_nil_iff, or_false] at hm
    rcases hm with e | e | e | e | e
    · exact ⟨.elasticNodeAvailabilityGauge, e ▸ rfl, hall _⟩
    · exact ⟨.nodeSearchLatencySummary, e ▸ rfl, hall _⟩
    · exact ⟨.shardsSuccessfulGauge, e ▸ rfl, hall _⟩
    · exact ⟨.docsHitGauge, e ▸ rfl, hall _⟩
    · exact ⟨.kibanaNodeAvailabilityGauge, e ▸ rfl, hall _⟩
  · intro v lvs hmem
    obtain ⟨key', hkey', id', hdec, hkept, hl⟩ := mem_trace_deletion hmem
    refine ⟨key', hkey', id', hdec, ?_, hl⟩
    rintro ⟨node, hn, hm⟩
    exact (specKept_eq_false_iff nodes id').1 hkept node hn hm
  · intro v v'
    obtain ⟨used, _, hd⟩ := deletionsOn_trace nodes (pre ++ key :: post) start now
    rw [hd v, hd v']

/-- C8 amended, at the ledger `n1|c1, n2|c1, bad` with live node `n1/c1`: the key `n2|c1`
is preceded by a well-formed key only, and the deletion of `(c1, n2)` on
`kibana_node_availability` is in the trace although the run then panics on `bad`. -/
theorem reached_vanished_deleted_on_all_five_vectors_witness :
    Event.deleteLabelValues .kibanaNodeAvailabilityGauge ["c1".toList, "n2".toList] ∈
        (cleanMetrics [⟨"n1".toList, "c1".toList⟩]
          (["n1|c1".toList] ++ "n2|c1".toList :: ["bad".toList]) 0 7).trace ∧
      (cleanMetrics [⟨"n1".toList, "c1".toList⟩]
        (["n1|c1".toList] ++ "n2|c1".toList :: ["bad".toList]) 0 7).outcome =
          Outcome.panicked :=
  ⟨((reached_vanished_deleted_on_all_five_vectors [⟨"n1".toList, "c1".toList⟩]
      ["n1|c1".toList] "n2|c1".toList ["bad".toList] 0 7 (by decide)
      ⟨"n2".toList, "c1".toList⟩ (by decide) (by decide)).2.2.1
      .kibanaNodeAvailabilityGauge).1,
   by decide⟩

/-- C9: a completed call of `cleanMetrics` makes exactly one observation on
`es_probe_metrics_cleaning_duration`, whatever the two lists hold; it is the last call of
the run, after the calls of all keys, and its value, the time elapsed since the reading taken
at entry, is non-negative when the monotonic clock has not run backwards in between. -/
theorem one_duration_observation_per_pass (nodes : List esnode) (everKnown : List GoString)
    (start now : Int) (err : Option GoString)
    (hdone : (cleanMetrics nodes everKnown start now).outcome = Outcome.returned err)
    (hclock : start ≤ now) :
    observations (cleanMetrics nodes everKnown start now).trace = [timeSince now start] ∧
      (cleanMetrics nodes everKnown start now).trace =
        (rangeKeys nodes everKnown).1 ++ [Event.observe (timeSince now start)] ∧
      observations (rangeKeys nodes everKnown).1 = [] ∧
      0 ≤ timeSince now start := by
  have hwf := wellFormed_of_returned hdone
  rw [cleanMetrics_wellFormed nodes start now hwf, rangeKeys_wellFormed nodes hwf]
  refine ⟨?_, rfl, observations_flatMap_keyEvents nodes _, timeSince_nonneg hclock⟩
  have h1 : observations ((everKnown.filterMap specDecode).flatMap (keyEvents nodes) ++
      [Event.observe (timeSince now start)]) =
      observations ((everKnown.filterMap specDecode).flatMap (keyEvents nodes)) ++
        [timeSince now start] := by
    simp [observations, List.filterMap_append, Event.observed]
  rw [h1, observations_flatMap_keyEvents]
  rfl

/-- C9 at the ledger `n1|c1, n2|c1, n3|c2` with live nodes `n1/c1`, `n3/c2`, entered at
clock reading 5 and left at 9: one observation, of 4 nanoseconds. -/
theorem one_duration_observation_per_pass_witness :
    observations (cleanMetrics [⟨"n1".toList, "c1".toList⟩, ⟨"n3".toList, "c2".toList⟩]
      ["n1|c1".toList, "n2|c1".toList, "n3|c2".toList] 5 9).trace = [4] ∧ (0 : Int) ≤ 4 :=
  ⟨(one_duration_observation_per_pass
      [⟨"n1".toList, "c1".toList⟩, ⟨"n3".toList, "c2".toList⟩]
      ["n1|c1".toList, "n2|c1".toList, "n3|c2".toList] 5 9 none (by decide) (by decide)).1,
   (one_duration_observation_per_pass
      [⟨"n1".toList, "c1".toList⟩, ⟨"n3".toList, "c2".toList⟩]
      ["n1|c1".toList, "n2|c1".toList, "n3|c2".toList] 5 9 none (by decide) (by decide)).2.2.2⟩

/-- C10: totality under the well-formedness precondition.  When every key of the ledger
holds a `|`, the split of each key has exactly two elements, so that `n[0]` and `n[1]` are
in bounds, and `cleanMetrics` returns, with a nil error.  On every run that returns, whatever
the inputs, the error is nil. -/
theorem wellFormed_ledger_returns_nil (nodes : List esnode) (everKnown : List GoString)
    (start now : Int) (hwf : ∀ key ∈ everKnown, wellFormedKey key) :
    (∀ key ∈ everKnown, ∃ n0 n1, SplitN key '|' 2 = [n0, n1] ∧
        (SplitN key '|' 2)[0]? = some n0 ∧ (SplitN key '|' 2)[1]? = some n1) ∧
      (cleanMetrics nodes everKnown start now).outcome = Outcome.returned none ∧
      ∀ (nodes' : List esnode) (everKnown' : List GoString) (start' now' : Int)
        (err : Option GoString),
        (cleanMetrics nodes' everKnown' start' now').outcome = Outcome.returned err →
          err = none := by
  refine ⟨?_, by rw [cleanMetrics_wellFormed nodes start now hwf], ?_⟩
  · intro key hkey
    obtain ⟨id, hid⟩ := specDecode_isSome (hwf key hkey)
    exact ⟨id.name, id.cluster, SplitN_two_eq_specDecode hid,
      by rw [SplitN_two_eq_specDecode hid]; rfl, by rw [SplitN_two_eq_specDecode hid]; rfl⟩
  · intro nodes' everKnown' start' now' err h
    exact returned_err_eq_none h

/-- C10 at the ledger `n1|c1, n2|c1, n3|c2` with live nodes `n1/c1`, `n3/c2`: the run
returns nil. -/
theorem wellFormed_ledger_returns_nil_witness :
    (cleanMetrics [⟨"n1".toList, "c1".toList⟩, ⟨"n3".toList, "c2".toList⟩]
      ["n1|c1".toList, "n2|c1".toList, "n3|c2".toList] 0 7).outcome = Outcome.returned none :=
  (wellFormed_ledger_returns_nil [⟨"n1".toList, "c1".toList⟩, ⟨"n3".toList, "c2".toList⟩]
    ["n1|c1".toList, "n2|c1".toList, "n3|c2".toList] 0 7 (by decide)).2.1

end Espoke
